import Mathlib

/-!
Verification of the `numeric_map` library (sorted contiguous key→value map
with pluggable interpolation strategies).

Shallow embedding conventions:
* a `vector_map<K,M>` / `interpolating_map<K,M,I>` state is the list of its
  stored nodes (`std::pair<K,M>` becomes `K × M`); keys are instantiated with
  `ℤ` for the container claims (an archetypal totally ordered key type) and
  with `ℚ` for the interpolation strategies, where `ℚ` models the exact
  real-number semantics of the floating-point arithmetic in the source;
* iterators become positions (`Nat`), with `l.length` as the end sentinel;
* out-of-bounds iterator dereference (undefined behavior in C++) is made
  explicit in the return type of the operations that can perform it;
* `std::log` is modelled by an abstract function parameter `lg : ℚ → ℚ`;
  none of the claims below depends on its values.
-/

namespace am

/-- Node of the map: `std::pair<KeyT, MappedT>` with `KeyT = MappedT = ℤ`. -/
abbrev Node := ℤ × ℤ

/-- Default node used to express `getD`-style indexing; every access the
proofs rely on is shown to be in bounds. -/
def dNode : Node := (0, 0)

namespace vector_map

/-- Embedding of the custom binary-search loop shared (up to its predicate)
by `vector_map::lower_bound` and `vector_map::upper_bound`
(src/include/vector_map.h, lines 387-427): starting at position `first` with
`count` remaining elements, halve the window; when the probed element
satisfies `p` the search continues right of the probe, otherwise in the left
half including the probe. -/
def bsearch {α : Type} (l : List α) (d : α) (p : α → Bool) (first count : Nat) :
    Nat :=
  if h : count = 0 then first
  else
    let step := count / 2
    let it := first + step
    if p (l.getD it d) then
      bsearch l d p (it + 1) (count - step - 1)
    else
      bsearch l d p first step
termination_by count
decreasing_by
  · omega
  · exact Nat.div_lt_self (Nat.pos_of_ne_zero h) (by omega)

/-- Embedding of `vector_map::lower_bound` (vector_map.h, lines 319-321 and
387-406): binary search over the whole node sequence with the strict
predicate `it->first < key`. -/
def lower_bound (l : List Node) (k : ℤ) : Nat :=
  bsearch l dNode (fun nd => decide (nd.1 < k)) 0 l.length

/-- Embedding of the static `vector_map::upper_bound` (vector_map.h, lines
408-427) run on the subrange `[first, l.length)`: the loop advances while
`!(key < it->first)` holds. The public `upper_bound` (lines 324-327) is this
with `first = 0`; `equal_range` (lines 429-435) starts it at the lower
bound. -/
def upper_bound_from (l : List Node) (k : ℤ) (first : Nat) : Nat :=
  bsearch l dNode (fun nd => !decide (k < nd.1)) first (l.length - first)

/-- Embedding of `vector_map::upper_bound` on the whole sequence. -/
def upper_bound (l : List Node) (k : ℤ) : Nat :=
  upper_bound_from l k 0

/-- Embedding of `vector_map::equal_range` (vector_map.h, lines 330-333 and
429-435): the pair of the lower bound and the upper bound computed from the
lower-bound position. -/
def equal_range (l : List Node) (k : ℤ) : Nat × Nat :=
  let lb := lower_bound l k
  (lb, upper_bound_from l k lb)

/-- Result of `vector_map::find`: a position, the end sentinel, or the
out-of-bounds dereference the source performs when `lower_bound` returns the
end iterator. -/
inductive FindResult where
  | found (i : Nat)
  | notFound
  | endDeref
deriving DecidableEq

/-- Embedding of `vector_map::find` (vector_map.h, lines 310-314): the
source computes `it = lower_bound(k)` and then unconditionally reads
`it->first`; when `it` is the end iterator that read is past the end of the
storage (undefined behavior), which the embedding reports as `endDeref`. -/
def find (l : List Node) (k : ℤ) : FindResult :=
  let it := lower_bound l k
  match l[it]? with
  | some nd => if nd.1 = k then .found it else .notFound
  | none => .endDeref

/-- Embedding of single-pair `vector_map::insert` (vector_map.h, lines
241-252): the node is inserted at the `lower_bound` position of its key;
`std::vector::insert` shifts the tail, i.e. the result is
`take pos ++ [val] ++ drop pos`. -/
def insert (l : List Node) (v : Node) : List Node :=
  let pos := lower_bound l v.1
  l.take pos ++ v :: l.drop pos

/-- Embedding of range / initializer-list `vector_map::insert` (vector_map.h,
lines 255-273): the elements are inserted one by one in order. -/
def insert_range (l : List Node) (xs : List Node) : List Node :=
  xs.foldl insert l

/-- Embedding of `vector_map::erase(key)` (vector_map.h, lines 277-289):
computes the equal range; when its first position is not the end iterator the
span `[lb, ub)` is erased and its width returned, otherwise nothing is erased
and the count is 0. -/
def erase_key (l : List Node) (k : ℤ) : List Node × Nat :=
  let er := equal_range l k
  if er.1 < l.length then
    (l.take er.1 ++ l.drop er.2, er.2 - er.1)
  else
    (l, 0)

/-- Embedding of `vector_map::erase(pos)` (vector_map.h, lines 291-294):
`std::vector::erase` of one position. A position at or past the end is
undefined behavior in the source; the embedding leaves the list unchanged
there. -/
def erase_at (l : List Node) (i : Nat) : List Node :=
  l.take i ++ l.drop (i + 1)

/-- Embedding of `vector_map::erase(first, last)` (vector_map.h, lines
296-299): `std::vector::erase` of the span `[i, j)`. The source requires a
valid iterator range (`i ≤ j`); an invalid range is undefined behavior and is
modelled as the identity. -/
def erase_span (l : List Node) (i j : Nat) : List Node :=
  if i ≤ j then l.take i ++ l.drop j else l

/-- Embedding of `vector_map::clear` (vector_map.h, lines 303-306). -/
def clear (_l : List Node) : List Node := []

/-- Embedding of `vector_map::assign` (vector_map.h, lines 170-178): clears
the storage and then range-inserts. -/
def assign (_l : List Node) (xs : List Node) : List Node :=
  insert_range [] xs

/-- Embedding of `std::equal(a.begin(), a.end(), b.begin())`, the body of
`operator==` on `vector_map` (vector_map.h, lines 470-475) and on
`interpolating_map` (interpolating_map.h, lines 498-504): walks the first
range, comparing element-wise with the second; when the first range is longer
than the second and no mismatch stops the walk first, it reads past the end
of the second range (undefined behavior, reported as `none`). -/
def std_equal {α : Type} [DecidableEq α] : List α → List α → Option Bool
  | [], _ => some true
  | _ :: _, [] => none
  | a :: as, b :: bs => if a = b then std_equal as bs else some false

/-- Embedding of `operator==` on two maps holding node lists `a` and `b`. -/
def map_eq (a b : List Node) : Option Bool :=
  std_equal a b

end vector_map

/-- One container mutation, covering every operation named by the sortedness
claim: single-pair insert, range / initializer-list insert, erase by key, by
position, by span, assign, and clear. -/
inductive MapOp where
  | ins (v : Node)
  | insMany (xs : List Node)
  | eraseKey (k : ℤ)
  | eraseAt (i : Nat)
  | eraseSpan (i j : Nat)
  | assign (xs : List Node)
  | clear

/-- Apply one mutation to the stored node sequence. -/
def applyOp (l : List Node) : MapOp → List Node
  | .ins v => vector_map.insert l v
  | .insMany xs => vector_map.insert_range l xs
  | .eraseKey k => (vector_map.erase_key l k).1
  | .eraseAt i => vector_map.erase_at l i
  | .eraseSpan i j => vector_map.erase_span l i j
  | .assign xs => vector_map.assign l xs
  | .clear => vector_map.clear l

/-- Run a sequence of mutations starting from the empty container. -/
def runOps (ops : List MapOp) : List Node :=
  ops.foldl applyOp []

/-- The sortedness invariant: keys are pairwise non-decreasing under the key
comparison (`std::less`, i.e. `<` on `ℤ`, whose induced non-strict order is
`≤`). -/
abbrev KeySorted {K V : Type} [LE K] (l : List (K × V)) : Prop :=
  l.Pairwise (fun a b => a.1 ≤ b.1)

/-- Keys are pairwise strictly increasing. -/
abbrev StrictKeySorted {K V : Type} [LT K] (l : List (K × V)) : Prop :=
  l.Pairwise (fun a b => a.1 < b.1)

/-- Equal keys occupy one contiguous run of positions. -/
def EqKeysContiguous (l : List Node) : Prop :=
  ∀ i m j : Nat, i ≤ m → m ≤ j → j < l.length →
    (l.getD i dNode).1 = (l.getD j dNode).1 →
    (l.getD m dNode).1 = (l.getD i dNode).1

namespace interpolator

/-- Node consumed by the interpolation strategies; keys and mapped values are
instantiated with `ℚ`, the exact model of the floating-point arithmetic the
source performs after `detail::make_fp` promotion. -/
abbrev QNode := ℚ × ℚ

/-- Default node for `getD`-style indexing in the interpolators; every access
the proofs rely on is shown to be in bounds. -/
def dQNode : QNode := (0, 0)

/-- Embedding of `std::lower_bound(begin, end, x, comp)` as used by the
interpolation strategies (interpolators.h, lines 86-87, 133-134, 194-195):
for a range partitioned by `comp(·, x)` it returns the first position whose
element does not satisfy `comp(·, x)`, or the end position when all do. -/
def std_lower_bound (l : List QNode) (p : QNode → Bool) : Nat :=
  l.findIdx (fun nd => !(p nd))

/-- Embedding of `interpolator::piecewise_constant::operator()`
(interpolators.h, lines 67-92): fewer than one node yields `res_t(0)`; one
node yields its value; otherwise `std::lower_bound` with the predicate
`a.first <= x` finds `p`, and the result is `prev(p)->second` when
`p != begin`, else `p->second`. -/
def piecewise_constant (l : List QNode) (x : ℚ) : ℚ :=
  if l.length < 1 then 0
  else if l.length = 1 then (l.getD 0 dQNode).2
  else
    let p := std_lower_bound l (fun nd => decide (nd.1 ≤ x))
    if p ≠ 0 then (l.getD (p - 1) dQNode).2 else (l.getD p dQNode).2

/-- Embedding of `interpolator::piecewise_linear::operator()`
(interpolators.h, lines 114-153): fewer than one node yields
`make_fp(res_t{}) = 0`; one node yields its value; otherwise
`std::lower_bound` with the strict predicate `a.first < x` finds `p1`, which
is clamped (`p1 == begin` becomes `next(p1)`; else `p1 == end` becomes
`prev(p1)`), `p0 = prev(p1)`, and the result is
`p0->second + slope * (x - p0->first)` with
`slope = (p1->second - p0->second) / (p1->first - p0->first)`. -/
def piecewise_linear (l : List QNode) (x : ℚ) : ℚ :=
  if l.length < 1 then 0
  else if l.length = 1 then (l.getD 0 dQNode).2
  else
    let p1 := std_lower_bound l (fun nd => decide (nd.1 < x))
    let p1 := if p1 = 0 then 1 else if p1 = l.length then l.length - 1 else p1
    let n0 := l.getD (p1 - 1) dQNode
    let n1 := l.getD p1 dQNode
    n0.2 + ((n1.2 - n0.2) / (n1.1 - n0.1)) * (x - n0.1)

/-- Embedding of `interpolator::piecewise_log_linear::operator()`
(interpolators.h, lines 175-214): fewer than one node yields 0; one node, or
a query `x <= 0` (logarithm undefined), yields the first node's value;
otherwise the same bracketing as `piecewise_linear` with
`slope = (p1->second - p0->second) / log(p1->first / p0->first)` and result
`p0->second + slope * log(x / p0->first)`. `std::log` is the abstract
parameter `lg`. -/
def piecewise_log_linear (lg : ℚ → ℚ) (l : List QNode) (x : ℚ) : ℚ :=
  if l.length < 1 then 0
  else if l.length = 1 ∨ x ≤ 0 then (l.getD 0 dQNode).2
  else
    let p1 := std_lower_bound l (fun nd => decide (nd.1 < x))
    let p1 := if p1 = 0 then 1 else if p1 = l.length then l.length - 1 else p1
    let n0 := l.getD (p1 - 1) dQNode
    let n1 := l.getD p1 dQNode
    n0.2 + ((n1.2 - n0.2) / lg (n1.1 / n0.1)) * lg (x / n0.1)

end interpolator

namespace gradients

/-- Embedding of `interpolating_gradient::min` (gradients.h, lines 95-98):
returns `map_.begin()->second`, the mapped value of the first stored node in
key order; on an empty map the source dereferences `begin() == end()`
(undefined behavior), reported as `none`. -/
def gradient_min (l : List Node) : Option ℤ :=
  l.head?.map (·.2)

/-- Embedding of `interpolating_gradient::max` (gradients.h, lines 100-103):
returns `map_.rbegin()->second`, the mapped value of the last stored node in
key order; on an empty map the source dereferences `rbegin() == rend()`
(undefined behavior), reported as `none`. -/
def gradient_max (l : List Node) : Option ℤ :=
  l.getLast?.map (·.2)

/-- Mapped values are non-decreasing in key order. -/
abbrev ValuesMonotone (l : List Node) : Prop :=
  l.Pairwise (fun a b => a.2 ≤ b.2)

end gradients

/-! ## Helper lemmas: binary-search correctness and boundaries in sorted
lists. -/

namespace vector_map

/-- The binary-search loop never leaves the window it was started on. -/
theorem bsearch_mem_window {α : Type} (l : List α) (d : α) (p : α → Bool) :
    ∀ count first, first ≤ bsearch l d p first count ∧
      bsearch l d p first count ≤ first + count := by
  intro count
  induction count using Nat.strong_induction_on with
  | _ count ih =>
    intro first
    rw [bsearch]
    split
    · omega
    next h =>
      dsimp only
      split
      · have := ih (count - count / 2 - 1) (by omega) (first + count / 2 + 1)
        omega
      · have := ih (count / 2)
          (Nat.div_lt_self (Nat.pos_of_ne_zero h) one_lt_two) first
        omega

/-- The binary-search loop computes the boundary of a partitioned range: if
`p` holds at exactly the positions below `b` and the window contains `b`,
the loop returns `b`. -/
theorem bsearch_eq_boundary {α : Type} (l : List α) (d : α) (p : α → Bool)
    (b : Nat)
    (hT : ∀ j, j < b → p (l.getD j d) = true)
    (hF : ∀ j, b ≤ j → j < l.length → p (l.getD j d) = false) :
    ∀ count first, first ≤ b → b ≤ first + count → first + count ≤ l.length →
      bsearch l d p first count = b := by
  intro count
  induction count using Nat.strong_induction_on with
  | _ count ih =>
    intro first h1 h2 h3
    rw [bsearch]
    split
    · omega
    next h =>
      dsimp only
      split
      next hp =>
        have hlt : first + count / 2 < b := by
          by_contra hge
          rw [hF (first + count / 2) (by omega) (by omega)] at hp
          exact Bool.false_ne_true hp
        exact ih (count - count / 2 - 1) (by omega) (first + count / 2 + 1)
          (by omega) (by omega) (by omega)
      next hp =>
        have hge : b ≤ first + count / 2 := by
          by_contra hlt
          exact hp (hT (first + count / 2) (by omega))
        exact ih (count / 2)
          (Nat.div_lt_self (Nat.pos_of_ne_zero h) one_lt_two) first
          h1 (by omega) (by omega)

end vector_map

/-- In a list whose `f`-satisfying elements form a prefix (expressed as: a
later element satisfying `f` forces every earlier one to), every position
below `countP f` satisfies `f`. -/
theorem countP_prefix_true {α : Type} (d : α) (f : α → Bool) :
    ∀ l : List α, l.Pairwise (fun a b => f b = true → f a = true) →
      ∀ j, j < l.countP f → f (l.getD j d) = true := by
  intro l
  induction l with
  | nil => intro _ j hj; simp [List.countP_nil] at hj
  | cons a t ih =>
    intro hpw j hj
    obtain ⟨hhead, htail⟩ := List.pairwise_cons.mp hpw
    rw [List.countP_cons] at hj
    cases hfa : f a with
    | true =>
      cases j with
      | zero => simpa using hfa
      | succ j' =>
        rw [List.getD_cons_succ]
        exact ih htail j' (by simp [hfa] at hj; omega)
    | false =>
      have h0 : t.countP f = 0 := by
        rw [List.countP_eq_zero]
        intro b hb hfb
        rw [hhead b hb hfb] at hfa
        exact Bool.noConfusion hfa
      simp [hfa, h0] at hj

/-- Counterpart of `countP_prefix_true`: every position from `countP f` on
fails `f`. -/
theorem countP_suffix_false {α : Type} (d : α) (f : α → Bool) :
    ∀ l : List α, l.Pairwise (fun a b => f b = true → f a = true) →
      ∀ j, l.countP f ≤ j → j < l.length → f (l.getD j d) = false := by
  intro l
  induction l with
  | nil => intro _ j _ hj; simp at hj
  | cons a t ih =>
    intro hpw j hc hj
    obtain ⟨hhead, htail⟩ := List.pairwise_cons.mp hpw
    rw [List.countP_cons] at hc
    cases hfa : f a with
    | true =>
      cases j with
      | zero => simp [hfa] at hc
      | succ j' =>
        rw [List.getD_cons_succ]
        exact ih htail j' (by simp [hfa] at hc; omega) (by simpa using hj)
    | false =>
      have h0 : t.countP f = 0 := by
        rw [List.countP_eq_zero]
        intro b hb hfb
        rw [hhead b hb hfb] at hfa
        exact Bool.noConfusion hfa
      cases j with
      | zero => simpa using hfa
      | succ j' =>
        rw [List.getD_cons_succ]
        exact ih htail j' (by omega) (by simpa using hj)

/-- When the `f`-satisfying elements form a prefix, the first position
failing `f` (what `std::lower_bound` computes) is `countP f`. -/
theorem findIdx_not_eq_countP {α : Type} (f : α → Bool) :
    ∀ l : List α, l.Pairwise (fun a b => f b = true → f a = true) →
      l.findIdx (fun a => !(f a)) = l.countP f := by
  intro l
  induction l with
  | nil => intro _; simp
  | cons a t ih =>
    intro hpw
    obtain ⟨hhead, htail⟩ := List.pairwise_cons.mp hpw
    rw [List.findIdx_cons, List.countP_cons]
    cases hfa : f a with
    | true => simp [hfa, ih htail]
    | false =>
      have h0 : t.countP f = 0 := by
        rw [List.countP_eq_zero]
        intro b hb hfb
        rw [hhead b hb hfb] at hfa
        exact Bool.noConfusion hfa
      simp [hfa, h0]

/-- A pairwise relation that is reflexive relates any two positions in
non-decreasing index order. -/
theorem pairwise_getD_rel {α : Type} (d : α) {R : α → α → Prop}
    (hrefl : ∀ a, R a a) {l : List α} (h : l.Pairwise R) :
    ∀ i j, i ≤ j → j < l.length → R (l.getD i d) (l.getD j d) := by
  intro i j hij hj
  rcases Nat.eq_or_lt_of_le hij with rfl | hlt
  · exact hrefl _
  · rw [List.getD_eq_getElem _ _ (by omega), List.getD_eq_getElem _ _ hj]
    exact List.pairwise_iff_getElem.mp h i j (by omega) hj hlt

/-- In a key-sorted node list, keys are monotone in the position. -/
theorem keySorted_getD_mono {l : List Node} (hs : KeySorted l) :
    ∀ i j, i ≤ j → j < l.length →
      (l.getD i dNode).1 ≤ (l.getD j dNode).1 :=
  pairwise_getD_rel (R := fun a b : Node => a.1 ≤ b.1) dNode
    (fun _ => le_refl _) hs

/-- Trues-prefix pairwise closure for the predicate `key < k` on a
key-sorted list. -/
theorem keySorted_closure_lt {l : List Node} (hs : KeySorted l) (k : ℤ) :
    l.Pairwise (fun a b =>
      decide (b.1 < k) = true → decide (a.1 < k) = true) :=
  hs.imp (fun hab h => by
    simp only [decide_eq_true_eq] at *
    exact lt_of_le_of_lt hab h)

/-- Trues-prefix pairwise closure for the predicate `!(k < key)`, i.e.
`key ≤ k`, on a key-sorted list. -/
theorem keySorted_closure_le {l : List Node} (hs : KeySorted l) (k : ℤ) :
    l.Pairwise (fun a b =>
      (!decide (k < b.1)) = true → (!decide (k < a.1)) = true) :=
  hs.imp (fun hab h => by
    simp only [Bool.not_eq_true', decide_eq_false_iff_not, not_lt] at *
    exact le_trans hab h)

namespace vector_map

/-- On a key-sorted list, `lower_bound` returns the number of keys strictly
below the query, i.e. the first position whose key is not less than it. -/
theorem lower_bound_eq_countP {l : List Node} (hs : KeySorted l) (k : ℤ) :
    lower_bound l k = l.countP (fun nd => decide (nd.1 < k)) := by
  apply bsearch_eq_boundary l dNode _ _
    (countP_prefix_true dNode _ l (keySorted_closure_lt hs k))
    (fun j hj hjl => by
      have := countP_suffix_false dNode _ l (keySorted_closure_lt hs k) j hj hjl
      simpa using this)
    l.length 0 (Nat.zero_le _) (by simpa using List.countP_le_length _)
    (by omega)

/-- On a key-sorted list, the subrange `upper_bound` started at or before the
boundary returns the number of keys not greater than the query, i.e. the
first position whose key is greater than it. -/
theorem upper_bound_from_eq_countP {l : List Node} (hs : KeySorted l) (k : ℤ)
    (first : Nat)
    (hfirst : first ≤ l.countP (fun nd => !decide (k < nd.1))) :
    upper_bound_from l k first = l.countP (fun nd => !decide (k < nd.1)) := by
  have hlen : l.countP (fun nd => !decide (k < nd.1)) ≤ l.length := by
    simpa using List.countP_le_length
      (l := l) (fun nd => !decide (k < nd.1))
  apply bsearch_eq_boundary l dNode _ _
    (countP_prefix_true dNode _ l (keySorted_closure_le hs k))
    (countP_suffix_false dNode _ l (keySorted_closure_le hs k))
    (l.length - first) first hfirst (by omega) (by omega)

/-- The query's strict count never exceeds its non-strict count. -/
theorem countP_lt_le_countP_le (l : List Node) (k : ℤ) :
    l.countP (fun nd => decide (nd.1 < k)) ≤
      l.countP (fun nd => !decide (k < nd.1)) := by
  induction l with
  | nil => simp
  | cons a t ih =>
    rw [List.countP_cons, List.countP_cons]
    have : (decide (a.1 < k) = true) → ((!decide (k < a.1)) = true) := by
      simp only [decide_eq_true_eq, Bool.not_eq_true', decide_eq_false_iff_not,
        not_lt]
      omega
    by_cases h : decide (a.1 < k) = true
    · simp [h, this h]; omega
    · simp only [Bool.not_eq_true] at h
      simp [h]; split <;> omega

/-- On a key-sorted list, `upper_bound` from the start returns the
non-strict count. -/
theorem upper_bound_eq_countP {l : List Node} (hs : KeySorted l) (k : ℤ) :
    upper_bound l k = l.countP (fun nd => !decide (k < nd.1)) :=
  upper_bound_from_eq_countP hs k 0 (Nat.zero_le _)

end vector_map

/-- When the `f`-satisfying elements form a prefix, taking `countP f`
elements is exactly `takeWhile f`, and dropping them is `dropWhile f`. -/
theorem take_drop_countP {α : Type} (f : α → Bool) :
    ∀ l : List α, l.Pairwise (fun a b => f b = true → f a = true) →
      l.take (l.countP f) = l.takeWhile f ∧
      l.drop (l.countP f) = l.dropWhile f := by
  intro l
  induction l with
  | nil => simp
  | cons a t ih =>
    intro hpw
    obtain ⟨hhead, htail⟩ := List.pairwise_cons.mp hpw
    rw [List.countP_cons]
    cases hfa : f a with
    | true =>
      obtain ⟨h1, h2⟩ := ih htail
      simp [hfa, List.takeWhile_cons, List.dropWhile_cons, h1, h2]
    | false =>
      have h0 : t.countP f = 0 := by
        rw [List.countP_eq_zero]
        intro b hb hfb
        rw [hhead b hb hfb] at hfa
        exact Bool.noConfusion hfa
      simp [hfa, h0, List.takeWhile_cons, List.dropWhile_cons]

/-- When the `f`-satisfying elements form a prefix, everything left after
`dropWhile f` fails `f`. -/
theorem dropWhile_all_not {α : Type} (f : α → Bool) :
    ∀ l : List α, l.Pairwise (fun a b => f b = true → f a = true) →
      ∀ a ∈ l.dropWhile f, f a = false := by
  intro l
  induction l with
  | nil => simp
  | cons x t ih =>
    intro hpw a ha
    obtain ⟨hhead, htail⟩ := List.pairwise_cons.mp hpw
    rw [List.dropWhile_cons] at ha
    cases hfx : f x with
    | true =>
      rw [hfx] at ha
      exact ih htail a (by simpa using ha)
    | false =>
      rw [hfx] at ha
      simp only [Bool.false_eq_true, if_false, List.mem_cons] at ha
      rcases ha with rfl | hat
      · exact hfx
      · cases hfa : f a with
        | true =>
          rw [hhead a hat hfa] at hfx
          exact Bool.noConfusion hfx
        | false => rfl

/-- Removing a middle span of a list leaves a sublist. -/
theorem take_append_drop_sublist {α : Type} (l : List α) {i j : Nat}
    (h : i ≤ j) : (l.take i ++ l.drop j).Sublist l := by
  have h1 : (l.take i).Sublist (l.take j) := by
    have : l.take i = (l.take j).take i := by
      rw [List.take_take, Nat.min_eq_left h]
    rw [this]
    exact List.take_sublist i (l.take j)
  have h2 : (l.take i ++ l.drop j).Sublist (l.take j ++ l.drop j) :=
    h1.append (List.Sublist.refl _)
  simpa [List.take_append_drop] using h2

namespace vector_map

/-- Inserting at the `lower_bound` position keeps the key sequence sorted. -/
theorem insert_keySorted {l : List Node} (hs : KeySorted l) (v : Node) :
    KeySorted (insert l v) := by
  have hcl := keySorted_closure_lt hs v.1
  obtain ⟨ht, hd⟩ := take_drop_countP (fun nd => decide (nd.1 < v.1)) l hcl
  rw [insert, lower_bound_eq_countP hs, ht, hd]
  refine List.pairwise_append.mpr
    ⟨hs.sublist (List.takeWhile_sublist _), ?_, ?_⟩
  · rw [List.pairwise_cons]
    refine ⟨fun b hb => ?_, hs.sublist (List.dropWhile_sublist _)⟩
    have := dropWhile_all_not _ l hcl b hb
    simp only [decide_eq_false_iff_not, not_lt] at this
    exact this
  · intro a ha c hc
    have hak : a.1 < v.1 := by
      have := List.mem_takeWhile_imp ha
      simpa using this
    rcases List.mem_cons.mp hc with rfl | hcd
    · exact le_of_lt hak
    · have := dropWhile_all_not _ l hcl c hcd
      simp only [decide_eq_false_iff_not, not_lt] at this
      omega

/-- Range insertion keeps the key sequence sorted. -/
theorem insert_range_keySorted :
    ∀ (xs : List Node) {l : List Node}, KeySorted l →
      KeySorted (insert_range l xs) := by
  intro xs
  induction xs with
  | nil => intro l hs; simpa [insert_range] using hs
  | cons x t ih =>
    intro l hs
    rw [insert_range, List.foldl_cons]
    exact ih (insert_keySorted hs x)

/-- Erasing the equal range of a key keeps the key sequence sorted. -/
theorem erase_key_keySorted {l : List Node} (hs : KeySorted l) (k : ℤ) :
    KeySorted (erase_key l k).1 := by
  rw [erase_key]
  split
  · have hub := bsearch_mem_window l dNode
      (fun nd => !decide (k < nd.1)) (l.length - (equal_range l k).1)
      (equal_range l k).1
    exact hs.sublist (take_append_drop_sublist l (by
      simpa [equal_range, upper_bound_from] using hub.1))
  · exact hs

/-- Erasing one position keeps the key sequence sorted. -/
theorem erase_at_keySorted {l : List Node} (hs : KeySorted l) (i : Nat) :
    KeySorted (erase_at l i) :=
  hs.sublist (take_append_drop_sublist l (by omega))

/-- Erasing a span keeps the key sequence sorted. -/
theorem erase_span_keySorted {l : List Node} (hs : KeySorted l) (i j : Nat) :
    KeySorted (erase_span l i j) := by
  rw [erase_span]
  split
  next h => exact hs.sublist (take_append_drop_sublist l h)
  · exact hs

end vector_map

/-- Every container mutation preserves sortedness of the key sequence. -/
theorem applyOp_keySorted {l : List Node} (hs : KeySorted l) (op : MapOp) :
    KeySorted (applyOp l op) := by
  cases op with
  | ins v => exact vector_map.insert_keySorted hs v
  | insMany xs => exact vector_map.insert_range_keySorted xs hs
  | eraseKey k => exact vector_map.erase_key_keySorted hs k
  | eraseAt i => exact vector_map.erase_at_keySorted hs i
  | eraseSpan i j => exact vector_map.erase_span_keySorted hs i j
  | assign xs => exact vector_map.insert_range_keySorted xs (by simp [KeySorted])
  | clear => exact List.Pairwise.nil

/-- Any sequence of mutations started from a sorted state ends sorted. -/
theorem foldl_applyOp_keySorted :
    ∀ (ops : List MapOp) {l : List Node}, KeySorted l →
      KeySorted (ops.foldl applyOp l) := by
  intro ops
  induction ops with
  | nil => intro l hs; simpa using hs
  | cons op t ih =>
    intro l hs
    rw [List.foldl_cons]
    exact ih (applyOp_keySorted hs op)

/-- Sortedness of keys makes equal keys contiguous. -/
theorem keySorted_contiguous {l : List Node} (hs : KeySorted l) :
    EqKeysContiguous l := by
  intro i m j him hmj hj hkey
  have h1 := keySorted_getD_mono hs i m him (by omega)
  have h2 := keySorted_getD_mono hs m j hmj hj
  omega

/-! ## Specification predicates referenced by the claim theorems. -/

/-- Specification of the boundary queries at query key `k` on node list `l`:
the lower bound is the first position whose key is not less than `k`, the
upper bound the first position whose key is greater than `k`, they are
ordered and within bounds, `equal_range` is their pair, and the positions
between them are exactly those holding key `k`. -/
def BoundsSpec (l : List Node) (k : ℤ) : Prop :=
  vector_map.lower_bound l k ≤ vector_map.upper_bound l k ∧
  vector_map.upper_bound l k ≤ l.length ∧
  (∀ j, j < vector_map.lower_bound l k → (l.getD j dNode).1 < k) ∧
  (∀ j, vector_map.lower_bound l k ≤ j → j < l.length →
    k ≤ (l.getD j dNode).1) ∧
  (∀ j, j < vector_map.upper_bound l k → (l.getD j dNode).1 ≤ k) ∧
  (∀ j, vector_map.upper_bound l k ≤ j → j < l.length →
    k < (l.getD j dNode).1) ∧
  vector_map.equal_range l k =
    (vector_map.lower_bound l k, vector_map.upper_bound l k) ∧
  (∀ j, (vector_map.lower_bound l k ≤ j ∧ j < vector_map.upper_bound l k) ↔
    (j < l.length ∧ (l.getD j dNode).1 = k))

/-- Specification of single-pair insertion of node `v` into node list `l`:
writing `p` for the `lower_bound` position of the key of `v`, the result is
`l` with `v` placed at position `p`; every node strictly before `p` has a
strictly smaller key and every node from `p` on (in particular every node
with an equal key) has a key not smaller, so the new node lands immediately
before all existing equal-key nodes; the prefix before `p` and the suffix
after it are unchanged. -/
def InsertSpec (l : List Node) (v : Node) : Prop :=
  vector_map.insert l v =
    l.take (vector_map.lower_bound l v.1) ++
      v :: l.drop (vector_map.lower_bound l v.1) ∧
  (vector_map.insert l v).take (vector_map.lower_bound l v.1) =
    l.take (vector_map.lower_bound l v.1) ∧
  (vector_map.insert l v).getD (vector_map.lower_bound l v.1) dNode = v ∧
  (vector_map.insert l v).drop (vector_map.lower_bound l v.1 + 1) =
    l.drop (vector_map.lower_bound l v.1) ∧
  (∀ j, j < vector_map.lower_bound l v.1 → (l.getD j dNode).1 < v.1) ∧
  (∀ j, vector_map.lower_bound l v.1 ≤ j → j < l.length →
    v.1 ≤ (l.getD j dNode).1)

/-! ## Claim theorems for the ordered container. -/

/-- Claim C1 (status: code_bug). The claim states that `find(k)` returns the
end sentinel when the first position whose key is not less than `k` holds no
node with key equal to `k`, "including the empty map and for keys greater
than every stored key". In exactly those two cases `lower_bound` returns the
end iterator and the source (vector_map.h, line 313) evaluates `it->first`
on it: an out-of-bounds dereference (undefined behavior) instead of the end
sentinel. The third conjunct shows the claimed behavior does hold when the
lower bound is a real position. -/
theorem C1_find_dereferences_end_iterator :
    vector_map.find [] 0 = vector_map.FindResult.endDeref ∧
    vector_map.find [((1 : ℤ), (10 : ℤ))] 5 =
      vector_map.FindResult.endDeref ∧
    vector_map.find [((1 : ℤ), (10 : ℤ))] 1 =
      vector_map.FindResult.found 0 := by
  refine ⟨?_, ?_, ?_⟩ <;>
    simp [vector_map.find, vector_map.lower_bound, vector_map.bsearch]

/-- Claim C2 (status: code_bug). The claim states `a == b` holds iff the two
maps store the same number of nodes with pairwise equal nodes. The source
implements `operator==` as `std::equal(a.begin(), a.end(), b.begin())`
without a size check (vector_map.h line 474, interpolating_map.h line 503):
for `a = {(1,1)}` and `b = {(1,1),(2,2)}` it returns `true` although the
sizes differ, and with the arguments swapped it reads past the end of the
shorter second range (undefined behavior, `none` in the embedding). -/
theorem C2_operator_eq_ignores_size :
    vector_map.map_eq [((1 : ℤ), (1 : ℤ))] [(1, 1), (2, 2)] = some true ∧
    ([((1 : ℤ), (1 : ℤ))].length ≠
      ([((1 : ℤ), (1 : ℤ)), (2, 2)]).length) ∧
    vector_map.map_eq [((1 : ℤ), (1 : ℤ)), (2, 2)] [(1, 1)] = none := by
  refine ⟨by decide, by decide, by decide⟩

/-- Claim C3 (status: confirmed). Starting from the empty container, after
any finite sequence of insert (single pair, range, initializer list), erase
(by key, by position, by span), assign and clear operations, the stored key
sequence is non-decreasing under the key comparison and equal keys are
contiguous. -/
theorem C3_sortedness_invariant (ops : List MapOp) :
    KeySorted (runOps ops) ∧ EqKeysContiguous (runOps ops) := by
  have hs : KeySorted (runOps ops) := by
    rw [runOps]
    exact foldl_applyOp_keySorted ops List.Pairwise.nil
  exact ⟨hs, keySorted_contiguous hs⟩

/-- Claim C4 (status: confirmed). On every key-sorted node list,
`lower_bound` is the first position whose key is not less than the query,
`upper_bound` the first position whose key is greater, `lower_bound ≤
upper_bound`, and `equal_range` is their pair and spans exactly the maximal
contiguous run of positions whose key equals the query. -/
theorem C4_bound_queries (l : List Node) (k : ℤ) (hs : KeySorted l) :
    BoundsSpec l k := by
  have hlb := vector_map.lower_bound_eq_countP hs k
  have hub := vector_map.upper_bound_eq_countP hs k
  have hmono := vector_map.countP_lt_le_countP_le l k
  have hlenle : l.countP (fun nd => !decide (k < nd.1)) ≤ l.length := by
    simpa using List.countP_le_length (l := l) (fun nd => !decide (k < nd.1))
  have hT1 := countP_prefix_true dNode _ l (keySorted_closure_lt hs k)
  have hF1 := countP_suffix_false dNode _ l (keySorted_closure_lt hs k)
  have hT2 := countP_prefix_true dNode _ l (keySorted_closure_le hs k)
  have hF2 := countP_suffix_false dNode _ l (keySorted_closure_le hs k)
  have c3 : ∀ j, j < vector_map.lower_bound l k → (l.getD j dNode).1 < k := by
    intro j hj
    have := hT1 j (by omega)
    simpa using this
  have c4 : ∀ j, vector_map.lower_bound l k ≤ j → j < l.length →
      k ≤ (l.getD j dNode).1 := by
    intro j h1 h2
    have := hF1 j (by omega) h2
    simp only [decide_eq_false_iff_not, not_lt] at this
    exact this
  have c5 : ∀ j, j < vector_map.upper_bound l k → (l.getD j dNode).1 ≤ k := by
    intro j hj
    have := hT2 j (by omega)
    simp only [Bool.not_eq_true', decide_eq_false_iff_not, not_lt] at this
    exact this
  have c6 : ∀ j, vector_map.upper_bound l k ≤ j → j < l.length →
      k < (l.getD j dNode).1 := by
    intro j h1 h2
    have := hF2 j (by omega) h2
    simpa using this
  refine ⟨by omega, by omega, c3, c4, c5, c6, ?_, ?_⟩
  · rw [vector_map.equal_range]
    have : vector_map.upper_bound_from l k (vector_map.lower_bound l k) =
        l.countP (fun nd => !decide (k < nd.1)) :=
      vector_map.upper_bound_from_eq_countP hs k _ (by omega)
    rw [this, ← hub]
  · intro j
    constructor
    · rintro ⟨h1, h2⟩
      have hk1 := c4 j h1 (by omega)
      have hk2 := c5 j h2
      exact ⟨by omega, by omega⟩
    · rintro ⟨h1, h2⟩
      constructor
      · by_contra hlt
        have := c3 j (by omega)
        omega
      · by_contra hge
        have := c6 j (by omega) h1
        omega

/-- Witness for C4 at a concrete sorted map with a duplicated key. -/
theorem C4_bound_queries_witness :
    KeySorted [((1 : ℤ), (1 : ℤ)), (1, 2), (3, 3)] ∧
    BoundsSpec [((1 : ℤ), (1 : ℤ)), (1, 2), (3, 3)] 1 :=
  ⟨by decide, C4_bound_queries _ 1 (by decide)⟩

/-- Claim C9 (status: confirmed). Insertion places the new node at the
`lower_bound` position of its key, so it lands immediately before all
existing nodes with an equal key and leaves the relative order of all other
nodes unchanged; range and initializer-list insertion insert their elements
one by one the same way. -/
theorem C9_insert_at_lower_bound (l : List Node) (v : Node)
    (hs : KeySorted l) :
    InsertSpec l v ∧
    (∀ xs, vector_map.insert_range l xs = xs.foldl vector_map.insert l) := by
  have hp : vector_map.lower_bound l v.1 =
      l.countP (fun nd => decide (nd.1 < v.1)) :=
    vector_map.lower_bound_eq_countP hs v.1
  have hple : vector_map.lower_bound l v.1 ≤ l.length := by
    rw [hp]
    simpa using List.countP_le_length (l := l) (fun nd => decide (nd.1 < v.1))
  have htlen : (l.take (vector_map.lower_bound l v.1)).length =
      vector_map.lower_bound l v.1 := by
    rw [List.length_take]
    omega
  have e1 : vector_map.insert l v =
      l.take (vector_map.lower_bound l v.1) ++
        v :: l.drop (vector_map.lower_bound l v.1) := rfl
  have hdropp : (vector_map.insert l v).drop (vector_map.lower_bound l v.1) =
      v :: l.drop (vector_map.lower_bound l v.1) := by
    rw [e1]
    exact List.drop_left' htlen
  have hT1 := countP_prefix_true dNode _ l (keySorted_closure_lt hs v.1)
  have hF1 := countP_suffix_false dNode _ l (keySorted_closure_lt hs v.1)
  refine ⟨⟨e1, ?_, ?_, ?_, ?_, ?_⟩, fun xs => rfl⟩
  · rw [e1]
    exact List.take_left' htlen
  · have hq : (vector_map.insert l v)[vector_map.lower_bound l v.1]? =
        some v := by
      have := List.getElem?_drop (vector_map.insert l v)
        (vector_map.lower_bound l v.1) 0
      rw [hdropp] at this
      simpa using this.symm
    rw [List.getD_eq_getElem?_getD, hq]
    rfl
  · have : (vector_map.insert l v).drop (vector_map.lower_bound l v.1 + 1) =
        ((vector_map.insert l v).drop (vector_map.lower_bound l v.1)).drop 1
        := by
      rw [List.drop_drop]
    rw [this, hdropp]
    rfl
  · intro j hj
    have := hT1 j (by omega)
    simpa using this
  · intro j h1 h2
    have := hF1 j (by omega) h2
    simp only [decide_eq_false_iff_not, not_lt] at this
    exact this

/-- Witness for C9: inserting a duplicate of key 1 into a concrete sorted
map that already holds two nodes with key 1. -/
theorem C9_insert_at_lower_bound_witness :
    KeySorted [((1 : ℤ), (1 : ℤ)), (1, 2), (3, 3)] ∧
    (InsertSpec [((1 : ℤ), (1 : ℤ)), (1, 2), (3, 3)] (1, 9) ∧
      (∀ xs, vector_map.insert_range [((1 : ℤ), (1 : ℤ)), (1, 2), (3, 3)] xs =
        xs.foldl vector_map.insert [((1 : ℤ), (1 : ℤ)), (1, 2), (3, 3)])) :=
  ⟨by decide, C9_insert_at_lower_bound _ (1, 9) (by decide)⟩

/-- Claim C10 counterexample (status: corrected). On the key-sorted map
`{(0,5), (1,2)}`, `interpolating_gradient::min` returns 5 although the
stored mapped value 2 is smaller, and `max` returns 2 although the stored
mapped value 5 is larger: the source returns the first and last node's
values, not the extrema of the value range. -/
theorem C10_min_max_counterexample :
    gradients.gradient_min [((0 : ℤ), (5 : ℤ)), (1, 2)] = some 5 ∧
    gradients.gradient_max [((0 : ℤ), (5 : ℤ)), (1, 2)] = some 2 ∧
    KeySorted [((0 : ℤ), (5 : ℤ)), (1, 2)] ∧
    ((1 : ℤ), (2 : ℤ)) ∈ [((0 : ℤ), (5 : ℤ)), (1, 2)] ∧
    ((0 : ℤ), (5 : ℤ)) ∈ [((0 : ℤ), (5 : ℤ)), (1, 2)] ∧
    (2 : ℤ) < 5 := by
  refine ⟨by decide, by decide, by decide, by decide, by decide, by decide⟩

/-- Claim C10 as amended (status: corrected). For every non-empty
interpolating_gradient, `min()` returns the mapped value of the first stored
node and `max()` the mapped value of the last stored node (in key order);
these are the extrema of the value range exactly when the mapped values are
monotone non-decreasing in key order, which the claim's "monotone or not"
does not require. -/
theorem C10_min_max_first_last (l : List Node) (h : l ≠ [])
    (hs : KeySorted l) :
    gradients.gradient_min l = some ((l.getD 0 dNode).2) ∧
    gradients.gradient_max l = some ((l.getD (l.length - 1) dNode).2) ∧
    (gradients.ValuesMonotone l → ∀ v ∈ l,
      (l.getD 0 dNode).2 ≤ v.2 ∧ v.2 ≤ (l.getD (l.length - 1) dNode).2) := by
  have hlen : 0 < l.length := List.length_pos.mpr h
  refine ⟨?_, ?_, ?_⟩
  · cases l with
    | nil => exact absurd rfl h
    | cons a t => rfl
  · rw [gradients.gradient_max, List.getLast?_eq_getElem?,
      List.getElem?_eq_getElem (by omega),
      List.getD_eq_getElem _ _ (by omega)]
    rfl
  · intro hm v hv
    obtain ⟨i, hi, hvi⟩ := List.mem_iff_getElem.mp hv
    have h1 := pairwise_getD_rel (R := fun a b : Node => a.2 ≤ b.2) dNode
      (fun _ => le_refl _) hm 0 i (by omega) hi
    have h2 := pairwise_getD_rel (R := fun a b : Node => a.2 ≤ b.2) dNode
      (fun _ => le_refl _) hm i (l.length - 1) (by omega) (by omega)
    rw [List.getD_eq_getElem _ _ hi, hvi] at h1 h2
    exact ⟨h1, h2⟩

/-! ## Claim theorems for the interpolation strategies. -/

namespace interpolator

/-- Trues-prefix closure of the predicate `key < x` on a key-sorted node
range. -/
theorem qclosure_lt {l : List QNode} (hs : KeySorted l) (x : ℚ) :
    l.Pairwise (fun a b =>
      decide (b.1 < x) = true → decide (a.1 < x) = true) :=
  hs.imp (fun hab h => by
    simp only [decide_eq_true_eq] at *
    exact lt_of_le_of_lt hab h)

/-- Trues-prefix closure of the predicate `key ≤ x` on a key-sorted node
range. -/
theorem qclosure_le {l : List QNode} (hs : KeySorted l) (x : ℚ) :
    l.Pairwise (fun a b =>
      decide (b.1 ≤ x) = true → decide (a.1 ≤ x) = true) :=
  hs.imp (fun hab h => by
    simp only [decide_eq_true_eq] at *
    exact le_trans hab h)

/-- In a key-sorted node range, keys are monotone in the position. -/
theorem qKeySorted_getD_mono {l : List QNode} (hs : KeySorted l) :
    ∀ i j, i ≤ j → j < l.length →
      (l.getD i dQNode).1 ≤ (l.getD j dQNode).1 :=
  pairwise_getD_rel (R := fun a b : QNode => a.1 ≤ b.1) dQNode
    (fun _ => le_refl _) hs

/-- Specification of `piecewise_constant` on a range of at least two nodes:
when the query key is below every stored key the first node's value is
returned, and otherwise the value of a node whose key is the greatest stored
key not exceeding the query. -/
def ConstantSpec (l : List QNode) (x : ℚ) : Prop :=
  (x < (l.getD 0 dQNode).1 →
    piecewise_constant l x = (l.getD 0 dQNode).2) ∧
  ((l.getD 0 dQNode).1 ≤ x →
    ∃ i, i < l.length ∧ piecewise_constant l x = (l.getD i dQNode).2 ∧
      (l.getD i dQNode).1 ≤ x ∧
      (∀ j, j < l.length → (l.getD j dQNode).1 ≤ x →
        (l.getD j dQNode).1 ≤ (l.getD i dQNode).1))

/-- Specification of `piecewise_linear` on a range of at least two nodes:
some `b` is the first position whose key is not less than the query
(characterized by the two boundary conditions); the upper bracket is `b`
clamped into `[1, length - 1]` exactly as the source clamps
(`begin → next`, `end → prev`), and the result is the linear-interpolation
formula over the bracket `(i1 - 1, i1)`. -/
def LinearSpec (l : List QNode) (x : ℚ) : Prop :=
  ∃ b i1, b ≤ l.length ∧
    (∀ j, j < b → (l.getD j dQNode).1 < x) ∧
    (∀ j, b ≤ j → j < l.length → x ≤ (l.getD j dQNode).1) ∧
    i1 = (if b = 0 then 1 else if b = l.length then l.length - 1 else b) ∧
    1 ≤ i1 ∧ i1 < l.length ∧
    piecewise_linear l x =
      (l.getD (i1 - 1) dQNode).2 +
        (((l.getD i1 dQNode).2 - (l.getD (i1 - 1) dQNode).2) /
          ((l.getD i1 dQNode).1 - (l.getD (i1 - 1) dQNode).1)) *
        (x - (l.getD (i1 - 1) dQNode).1)

/-- Claim C5 (status: confirmed). For every range of at least two nodes with
strictly ascending keys and every query key, `piecewise_linear` brackets the
query with a lower-bound search under the strict `key < x` predicate,
clamps the upper bracket so a predecessor exists, and applies the linear
formula `v0 + ((v1 - v0)/(k1 - k0)) * (x - k0)`; with nodes
`{(1,1),(10,10)}` it returns `20.12` at `x = 20.12` and `-1.4` at
`x = -1.4` (floating arithmetic modelled exactly over `ℚ`). -/
theorem C5_piecewise_linear (l : List QNode) (x : ℚ) (h2 : 2 ≤ l.length)
    (hs : StrictKeySorted l) :
    LinearSpec l x ∧
    piecewise_linear [(1, 1), (10, 10)] (2012 / 100) = 2012 / 100 ∧
    piecewise_linear [(1, 1), (10, 10)] (-14 / 10) = -14 / 10 := by
  have hsle : KeySorted l := hs.imp (fun h => le_of_lt h)
  have hcl := qclosure_lt hsle x
  have hfind : l.findIdx (fun nd => !(decide (nd.1 < x))) =
      l.countP (fun nd => decide (nd.1 < x)) :=
    findIdx_not_eq_countP _ l hcl
  have hble : l.countP (fun nd => decide (nd.1 < x)) ≤ l.length := by
    simpa using List.countP_le_length (l := l) (fun nd => decide (nd.1 < x))
  refine ⟨?_, ?_, ?_⟩
  · rw [LinearSpec]
    set c := l.countP (fun nd => decide (nd.1 < x)) with hc
    refine ⟨c, if c = 0 then 1 else if c = l.length then l.length - 1 else c,
      hble, ?_, ?_, rfl, ?_, ?_, ?_⟩
    · intro j hj
      have := countP_prefix_true dQNode _ l hcl j (by omega)
      simpa using this
    · intro j hj hjl
      have := countP_suffix_false dQNode _ l hcl j (by omega) hjl
      simp only [decide_eq_false_iff_not, not_lt] at this
      exact this
    · split
      · omega
      · split <;> omega
    · split
      · omega
      · split <;> omega
    · rw [piecewise_linear, if_neg (by omega), if_neg (by omega)]
      simp only [std_lower_bound, hfind, ← hc]
  · norm_num [piecewise_linear, std_lower_bound, List.findIdx_cons]
  · norm_num [piecewise_linear, std_lower_bound, List.findIdx_cons]

/-- Witness for C5 at the two-node range of the repository's test file and
an in-domain query key. -/
theorem C5_piecewise_linear_witness :
    2 ≤ ([((1 : ℚ), (1 : ℚ)), (10, 10)] : List QNode).length ∧
    StrictKeySorted [((1 : ℚ), (1 : ℚ)), (10, 10)] ∧
    (LinearSpec [((1 : ℚ), (1 : ℚ)), (10, 10)] (3 / 2) ∧
      piecewise_linear [(1, 1), (10, 10)] (2012 / 100) = 2012 / 100 ∧
      piecewise_linear [(1, 1), (10, 10)] (-14 / 10) = -14 / 10) :=
  ⟨by decide, by decide,
    C5_piecewise_linear [((1 : ℚ), (1 : ℚ)), (10, 10)] (3 / 2)
      (by decide) (by decide)⟩

/-- Claim C6 (status: confirmed). For every range of at least two nodes
sorted ascending by key and every query key `x`, `piecewise_constant`
returns the value associated with the greatest stored key that is `≤ x`,
and the first node's value when `x` is below every stored key; with nodes
`{(1,1),(10,10)}` it returns 1 at `x = 9.9`, 10 at `x = 10` and 10 at
`x = 1123.54`. -/
theorem C6_piecewise_constant (l : List QNode) (x : ℚ) (h2 : 2 ≤ l.length)
    (hs : KeySorted l) :
    ConstantSpec l x ∧
    piecewise_constant [(1, 1), (10, 10)] (99 / 10) = 1 ∧
    piecewise_constant [(1, 1), (10, 10)] 10 = 10 ∧
    piecewise_constant [(1, 1), (10, 10)] (112354 / 100) = 10 := by
  have hcl := qclosure_le hs x
  have hfind : l.findIdx (fun nd => !(decide (nd.1 ≤ x))) =
      l.countP (fun nd => decide (nd.1 ≤ x)) :=
    findIdx_not_eq_countP _ l hcl
  have hble : l.countP (fun nd => decide (nd.1 ≤ x)) ≤ l.length := by
    simpa using List.countP_le_length (l := l) (fun nd => decide (nd.1 ≤ x))
  have heval : piecewise_constant l x =
      (if l.countP (fun nd => decide (nd.1 ≤ x)) ≠ 0 then
        (l.getD (l.countP (fun nd => decide (nd.1 ≤ x)) - 1) dQNode).2
      else (l.getD (l.countP (fun nd => decide (nd.1 ≤ x))) dQNode).2) := by
    rw [piecewise_constant, if_neg (by omega), if_neg (by omega)]
    simp only [std_lower_bound, hfind]
  refine ⟨⟨?_, ?_⟩, ?_, ?_, ?_⟩
  · intro hx
    have hzero : l.countP (fun nd => decide (nd.1 ≤ x)) = 0 := by
      rw [List.countP_eq_zero]
      intro nd hnd
      obtain ⟨i, hi, hvi⟩ := List.mem_iff_getElem.mp hnd
      have := qKeySorted_getD_mono hs 0 i (by omega) hi
      rw [List.getD_eq_getElem _ _ hi, hvi] at this
      simp only [decide_eq_true_eq]
      intro hcon
      have : (l.getD 0 dQNode).1 ≤ x := le_trans this hcon
      linarith
    rw [heval, hzero]
    simp
  · intro hx
    have hpos : 0 < l.countP (fun nd => decide (nd.1 ≤ x)) := by
      rw [List.countP_pos_iff]
      refine ⟨l.getD 0 dQNode, ?_, by simpa using hx⟩
      rw [List.getD_eq_getElem _ _ (by omega)]
      exact List.getElem_mem _
    refine ⟨l.countP (fun nd => decide (nd.1 ≤ x)) - 1, by omega, ?_, ?_, ?_⟩
    · rw [heval, if_pos (by omega)]
    · have := countP_prefix_true dQNode _ l hcl
        (l.countP (fun nd => decide (nd.1 ≤ x)) - 1) (by omega)
      simpa using this
    · intro j hj hjx
      by_cases hjc : j < l.countP (fun nd => decide (nd.1 ≤ x))
      · exact qKeySorted_getD_mono hs j _ (by omega) (by omega)
      · have := countP_suffix_false dQNode _ l hcl j (by omega) hj
        simp only [decide_eq_false_iff_not, not_le] at this
        linarith
  · norm_num [piecewise_constant, std_lower_bound, List.findIdx_cons]
  · norm_num [piecewise_constant, std_lower_bound, List.findIdx_cons]
  · norm_num [piecewise_constant, std_lower_bound, List.findIdx_cons]

/-- Witness for C6 at the two-node range of the repository's test file and a
query key between the two stored keys. -/
theorem C6_piecewise_constant_witness :
    2 ≤ ([((1 : ℚ), (1 : ℚ)), (10, 10)] : List QNode).length ∧
    KeySorted [((1 : ℚ), (1 : ℚ)), (10, 10)] ∧
    (ConstantSpec [((1 : ℚ), (1 : ℚ)), (10, 10)] (3 / 2) ∧
      piecewise_constant [(1, 1), (10, 10)] (99 / 10) = 1 ∧
      piecewise_constant [(1, 1), (10, 10)] 10 = 10 ∧
      piecewise_constant [(1, 1), (10, 10)] (112354 / 100) = 10) :=
  ⟨by decide, by decide,
    C6_piecewise_constant [((1 : ℚ), (1 : ℚ)), (10, 10)] (3 / 2)
      (by decide) (by decide)⟩

/-- Claim C7 (status: confirmed). Each of the three strategies returns the
value type's zero on an empty node range, and on a one-node range returns
that node's value for every query key (flat extrapolation), including keys
far from the stored key. -/
theorem C7_empty_and_singleton (x : ℚ) (lg : ℚ → ℚ) (nd : QNode) :
    piecewise_constant [] x = 0 ∧
    piecewise_linear [] x = 0 ∧
    piecewise_log_linear lg [] x = 0 ∧
    piecewise_constant [nd] x = nd.2 ∧
    piecewise_linear [nd] x = nd.2 ∧
    piecewise_log_linear lg [nd] x = nd.2 :=
  ⟨rfl, rfl, rfl, rfl, rfl, rfl⟩

/-- Claim C8 (status: confirmed). For every node range with at least one
node, sorted ascending by key, and every query key `x ≤ 0`,
`piecewise_log_linear` returns the first node's value through the guarded
special case, regardless of the number of further nodes, and independently
of the logarithm function (so no logarithm is evaluated). -/
theorem C8_log_linear_nonpositive (lg : ℚ → ℚ) (l : List QNode) (x : ℚ)
    (h1 : l ≠ []) (hs : KeySorted l) (hx : x ≤ 0) :
    piecewise_log_linear lg l x = (l.getD 0 dQNode).2 := by
  cases l with
  | nil => exact absurd rfl h1
  | cons a t =>
    rw [piecewise_log_linear, if_neg (by simp), if_pos (Or.inr hx)]

/-- Witness for C8 at a concrete sorted two-node range and the query key
`-1.4` of the repository's test file. -/
theorem C8_log_linear_nonpositive_witness :
    ([((1 : ℚ), (1 : ℚ)), (4, 2)] ≠ ([] : List QNode)) ∧
    KeySorted [((1 : ℚ), (1 : ℚ)), (4, 2)] ∧
    (-14 / 10 : ℚ) ≤ 0 ∧
    piecewise_log_linear id [((1 : ℚ), (1 : ℚ)), (4, 2)] (-14 / 10) =
      (([((1 : ℚ), (1 : ℚ)), (4, 2)] : List QNode).getD 0 dQNode).2 :=
  ⟨by decide, by decide, by norm_num,
    C8_log_linear_nonpositive id _ _ (by decide) (by decide) (by norm_num)⟩

end interpolator

/-- Witness for the amended C10 at a concrete two-node map with monotone
values. -/
theorem C10_min_max_first_last_witness :
    ([((0 : ℤ), (1 : ℤ)), (1, 2)] ≠ ([] : List Node)) ∧
    KeySorted [((0 : ℤ), (1 : ℤ)), (1, 2)] ∧
    (gradients.gradient_min [((0 : ℤ), (1 : ℤ)), (1, 2)] = some
      (([((0 : ℤ), (1 : ℤ)), (1, 2)].getD 0 dNode).2) ∧
    gradients.gradient_max [((0 : ℤ), (1 : ℤ)), (1, 2)] = some
      (([((0 : ℤ), (1 : ℤ)), (1, 2)].getD
        ([((0 : ℤ), (1 : ℤ)), (1, 2)].length - 1) dNode).2) ∧
    (gradients.ValuesMonotone [((0 : ℤ), (1 : ℤ)), (1, 2)] →
      ∀ v ∈ [((0 : ℤ), (1 : ℤ)), (1, 2)],
        (([((0 : ℤ), (1 : ℤ)), (1, 2)].getD 0 dNode).2 ≤ v.2 ∧
          v.2 ≤ ([((0 : ℤ), (1 : ℤ)), (1, 2)].getD
            ([((0 : ℤ), (1 : ℤ)), (1, 2)].length - 1) dNode).2))) :=
  ⟨by decide, by decide, C10_min_max_first_last _ (by decide) (by decide)⟩

end am
